import Mathlib

/-!
Verification of the ezmsg-ssvep offline spectral-statistics pipeline.

The repository's available sources consist of the notebook
`notebooks/offline_analysis.ipynb`, which wires a message replay source, the
`SpectralStats` transform, a message collector and a terminate-on-total policy
into an `OfflineStats` collection, runs it, and reads `system.output[-1]`.
The transform implementation `ezmsg.ssvep.spectralstats` itself is not among
the available sources, so it is modelled here from the specification
(sections 3, 4.1, 6 and 7); every such definition carries a doc comment
starting with "Modelled from the spec".  All numeric data is modelled with
exact rationals; the emitted significance score `-log10(p)` is expressed in
theorem statements as `-Real.logb 10 p` applied to the modelled p-values.
-/

namespace EzmsgSsvep

/-- Linear axis calibration of a labeled-array axis: `gain`, `offset`
and a physical unit (spec section 3). -/
structure AxisInfo where
  gain : ℚ
  offset : ℚ
  unit : String
deriving DecidableEq

/-- A labeled array as the transform consumes it (spec section 3): named axes
with calibration, and the numeric block listed sample-by-sample along the
configured time axis, each entry being the vector of values over the
remaining (channel) axis. -/
structure AxisArr where
  axes : List (String × AxisInfo)
  samples : List (List ℚ)
deriving DecidableEq

/-- Look up an axis by name in an axis association list. -/
def findAxis (name : String) : List (String × AxisInfo) → Option AxisInfo
  | [] => none
  | p :: rest => if p.1 = name then some p.2 else findAxis name rest

/-- Named axis lookup on a labeled array. -/
def AxisArr.getAxis (a : AxisArr) (name : String) : Option AxisInfo :=
  findAxis name a.axes

/-- Modelled from the spec: the configuration surface of the Spectral
Statistics Transform (spec sections 4.1 and 6); the implementation
`ezmsg.ssvep.spectralstats` is not among the available sources, only its
notebook caller is.  `freq_lo`/`freq_hi` are the inclusive-exclusive bounds
of `freq_range`. -/
structure SpectralStatsSettings where
  time_axis : String
  freq_axis : String
  freq_lo : ℚ
  freq_hi : ℚ
  integration_time : ℚ
  multiple_comparisons : Bool
deriving DecidableEq

/-- Modelled from the spec: eager configuration validation (spec sections 6
and 7): an invalid `freq_range` (lower bound at or above the upper bound) or a
non-positive `integration_time` is rejected at configuration time. -/
def validateSettings (s : SpectralStatsSettings) : Except String SpectralStatsSettings :=
  if s.freq_hi ≤ s.freq_lo then .error "invalid freq_range"
  else if s.integration_time ≤ 0 then .error "non-positive integration_time"
  else .ok s

/-- One buffered sample: the sampling period it was recorded at (the time-axis
gain of the chunk it came from) and its vector of channel values. -/
abbrev Sample := ℚ × List ℚ

/-- Total duration of a buffer of samples: the sum of their sampling
periods (spec section 4.1 step 2: sample count times axis gain). -/
def durOf (buf : List Sample) : ℚ :=
  (buf.map Prod.fst).sum

/-- Tag each time sample of a chunk with the chunk's sampling period. -/
def tagSamples (g : ℚ) (rows : List (List ℚ)) : List Sample :=
  rows.map (fun v => (g, v))

/-- Modelled from the spec: trim the accumulated buffer to exactly the
configured duration — the shortest prefix whose duration reaches `t`
(spec section 4.1 step 3: excess samples beyond the window boundary are
dropped, not carried into the next window). -/
def takeDur (t : ℚ) : List Sample → List Sample
  | [] => []
  | x :: rest => if t ≤ 0 then [] else x :: takeDur (t - x.1) rest

/-- A window is degenerate when it has zero variance: every sample vector
equals the first one (all-zero or constant signal, spec section 4.1 errors). -/
def degenerateWin (win : List Sample) : Bool :=
  match win with
  | [] => true
  | x :: rest => rest.all (fun y => decide (y.2 = x.2))

/-- Number of channels of a window (length of its sample vectors). -/
def winChannels (win : List Sample) : ℕ :=
  match win with
  | [] => 0
  | x :: _ => x.2.length

/-- The time series of one channel of a window. -/
def colAt (win : List Sample) (c : ℕ) : List ℚ :=
  win.map (fun x => x.2.getD c 0)

/-- Modelled from the spec: a rational square-wave basis value standing in for
the DFT kernel at bin `b`, time index `t`, window length `m`; the spec leaves
the exact spectral estimator open (section 9) and fixes only the externally
observable contract, which this surrogate satisfies. -/
def basisVal (m b t : ℕ) : ℚ :=
  if (2 * b * t / m) % 2 = 0 then 1 else -1

/-- Modelled from the spec: per-bin per-channel power of a window — the
squared correlation of the channel's time series with the bin's basis
(spec section 4.1 step 3a; nonnegative by construction). -/
def binPower (win : List Sample) (b c : ℕ) : ℚ :=
  (((List.range win.length).map
      (fun t => (colAt win c).getD t 0 * basisVal win.length b t)).sum) ^ 2

/-- Frequency resolution of an emitted window: one over the configured
window duration (spec section 4.1 step 3b). -/
def freqRes (cfg : SpectralStatsSettings) : ℚ :=
  1 / cfg.integration_time

/-- Modelled from the spec: the frequency-bin indices of an `m`-sample real
DFT (bins `0 .. m/2`) whose physical frequency (index times frequency
resolution) falls inside the configured inclusive-exclusive `freq_range`
(spec section 4.1 step 3b). -/
def retainedBins (cfg : SpectralStatsSettings) (m : ℕ) : List ℕ :=
  (List.range (m / 2 + 1)).filter
    (fun i => decide (cfg.freq_lo ≤ (i : ℚ) * freqRes cfg) &&
              decide ((i : ℚ) * freqRes cfg < cfg.freq_hi))

/-- Number of frequency bins falling inside `freq_range` for an `m`-sample
window. -/
def numBinsOf (cfg : SpectralStatsSettings) (m : ℕ) : ℕ :=
  (retainedBins cfg m).length

/-- Modelled from the spec: noise-floor estimate for a bin — the summed power
of the other retained (non-signal) bins of the same channel
(spec section 4.1 step 3c). -/
def noiseFloor (cfg : SpectralStatsSettings) (win : List Sample) (b c : ℕ) : ℚ :=
  (((retainedBins cfg win.length).filter (fun i => decide (i ≠ b))).map
      (fun i => binPower win i c)).sum

/-- Modelled from the spec: the raw per-bin p-value — a degenerate
(zero-variance) window yields the well-defined sentinel p = 1, otherwise the
bin's power is compared against the noise floor, giving a p-value in (0, 1]
that equals 1 exactly when the bin carries no power
(spec section 4.1 step 3c and the errors paragraph). -/
def pRaw (cfg : SpectralStatsSettings) (win : List Sample) (b c : ℕ) : ℚ :=
  if degenerateWin win then 1
  else (noiseFloor cfg win b c + 1) / (noiseFloor cfg win b c + binPower win b c + 1)

/-- Number of simultaneous tests of a window: retained bins times channels
(spec section 4.1 step 3d). -/
def numTests (cfg : SpectralStatsSettings) (win : List Sample) : ℕ :=
  numBinsOf cfg win.length * winChannels win

/-- Modelled from the spec: the per-bin p-value actually reported — when
`multiple_comparisons` is set, the raw p-value is Bonferroni-corrected,
p = min(1, p_raw * num_tests), before the log transform
(spec section 4.1 step 3d). -/
def pFinal (cfg : SpectralStatsSettings) (win : List Sample) (b c : ℕ) : ℚ :=
  if cfg.multiple_comparisons then
    min 1 (pRaw cfg win b c * (numTests cfg win : ℚ))
  else pRaw cfg win b c

/-- An emitted spectral-statistic array.  `axes` and `pvals` are the array
proper: the axis metadata with the frequency axis substituted for the time
axis, and the per-bin per-channel p-values (the emitted value of a cell is the
significance score `-log10` of its p-value, expressed at the statement level).
`window` is bookkeeping recording the span of buffered samples this statistic
consumed; it is used to state the windowing properties and is not part of the
emitted payload. -/
structure StatOut where
  axes : List (String × AxisInfo)
  pvals : List (List ℚ)
  window : List Sample
deriving DecidableEq

/-- Physical frequency of the first retained bin: the lower bound actually
retained (spec section 4.1 step 4). -/
def retainedLo (cfg : SpectralStatsSettings) (m : ℕ) : ℚ :=
  (((retainedBins cfg m).headD 0 : ℕ) : ℚ) * freqRes cfg

/-- Modelled from the spec: rebuild the axis metadata of an emitted window —
the configured time axis is replaced in place by the frequency axis (gain =
frequency resolution, offset = lower bound actually retained, unit Hz), every
other axis is kept unchanged (spec sections 3 and 4.1 step 4). -/
def substAxis (cfg : SpectralStatsSettings) (m : ℕ)
    (axes : List (String × AxisInfo)) : List (String × AxisInfo) :=
  axes.map (fun p =>
    if p.1 = cfg.time_axis then
      (cfg.freq_axis, AxisInfo.mk (freqRes cfg) (retainedLo cfg m) "Hz")
    else p)

/-- Modelled from the spec: build the spectral-statistic output of one
completed window (spec section 4.1 steps 3 and 4). -/
def mkStats (cfg : SpectralStatsSettings) (axes : List (String × AxisInfo))
    (win : List Sample) : StatOut :=
  { axes := substAxis cfg win.length axes
  , pvals := (retainedBins cfg win.length).map
      (fun b => (List.range (winChannels win)).map (fun c => pFinal cfg win b c))
  , window := win }

/-- The transform's internal state: the window accumulator buffer
(spec section 3). -/
structure AccState where
  buf : List Sample
deriving DecidableEq

/-- Modelled from the spec: shape-consistency check of an incoming chunk
against the current accumulation — the channel width of the incoming rows must
match the buffered width (spec sections 3 and 7; an inconsistent element is a
per-element data error and is dropped). -/
def shapeOk (st : AccState) (rows : List (List ℚ)) : Bool :=
  match st.buf, rows with
  | x :: _, v :: _ => decide (v.length = x.2.length)
  | _, _ => true

/-- Modelled from the spec: the transform's on-message step
(spec section 4.1 operation).  A chunk lacking the configured time axis, or
with an inconsistent shape, is dropped without corrupting the accumulation.
Otherwise its samples are appended; while the accumulated duration is below
`integration_time` nothing is emitted; once it reaches `integration_time` the
buffer is trimmed to exactly the configured duration, one statistic is
emitted, and the accumulator is cleared (excess samples are not carried into
the next window; at most one window is emitted per input, spec section 5). -/
def stepTransform (cfg : SpectralStatsSettings) (st : AccState) (msg : AxisArr) :
    AccState × Option StatOut :=
  match msg.getAxis cfg.time_axis with
  | none => (st, none)
  | some tinfo =>
    if shapeOk st msg.samples then
      let buf2 := st.buf ++ tagSamples tinfo.gain msg.samples
      if durOf buf2 < cfg.integration_time then (AccState.mk buf2, none)
      else (AccState.mk [], some (mkStats cfg msg.axes (takeDur cfg.integration_time buf2)))
    else (st, none)

/-- Run the transform from a given accumulator state over a list of inputs,
collecting the emitted statistics in order. -/
def runFrom (cfg : SpectralStatsSettings) (st : AccState) : List AxisArr → List StatOut
  | [] => []
  | msg :: rest =>
    match stepTransform cfg st msg with
    | (st2, none) => runFrom cfg st2 rest
    | (st2, some o) => o :: runFrom cfg st2 rest

/-- Run the transform from the empty accumulator (a fresh session); the
leftover partial buffer at stream end is discarded (spec section 3). -/
def runTransform (cfg : SpectralStatsSettings) (input : List AxisArr) : List StatOut :=
  runFrom cfg (AccState.mk []) input

/-- Construct-then-run: configuration is validated before any data element is
processed; an invalid configuration fails eagerly (spec sections 6 and 7). -/
def runSystem (s : SpectralStatsSettings) (input : List AxisArr) :
    Except String (List StatOut) :=
  match validateSettings s with
  | .error e => .error e
  | .ok cfg => .ok (runTransform cfg input)

/-- Whether an `Except` value is an error. -/
def isError {α : Type} (x : Except String α) : Bool :=
  match x with
  | .error _ => true
  | .ok _ => false

/-- Duration of one chunk along the configured time axis: sample count times
the time-axis gain; a chunk lacking the time axis contributes nothing to the
accumulation. -/
def chunkDur (cfg : SpectralStatsSettings) (a : AxisArr) : ℚ :=
  match a.getAxis cfg.time_axis with
  | none => 0
  | some t => (a.samples.length : ℚ) * t.gain

/-- Accumulated duration of a whole recording. -/
def totalDuration (cfg : SpectralStatsSettings) (rec : List AxisArr) : ℚ :=
  (rec.map (chunkDur cfg)).sum

/-- The time-tagged sample sequence a chunk contributes to the stream. -/
def chunkTagged (cfg : SpectralStatsSettings) (a : AxisArr) : List Sample :=
  match a.getAxis cfg.time_axis with
  | none => []
  | some t => tagSamples t.gain a.samples

/-- The full time-tagged sample sequence of an input recording, in order. -/
def inputSamples (cfg : SpectralStatsSettings) (rec : List AxisArr) : List Sample :=
  (rec.map (chunkTagged cfg)).flatten

/-- The p-value at bin row `b`, channel column `c` of an emitted statistic;
out-of-range cells read as the neutral p-value 1 (score 0). -/
def pEntry (o : StatOut) (b c : ℕ) : ℚ :=
  (o.pvals.getD b []).getD c 1

/-- The p-value at output index `i`, bin `b`, channel `c` of a whole run;
out-of-range indices read as the neutral p-value 1 (score 0). -/
def runP (cfg : SpectralStatsSettings) (input : List AxisArr) (i b c : ℕ) : ℚ :=
  (((runTransform cfg input).map (fun o => pEntry o b c)).getD i 1)

/-- The same settings with the `multiple_comparisons` flag switched. -/
def withMC (cfg : SpectralStatsSettings) (bb : Bool) : SpectralStatsSettings :=
  { cfg with multiple_comparisons := bb }

/-- The ports of the `OfflineStats` collection's four units, as wired in the
notebook (`offline_analysis.ipynb`, `OfflineStats.network`). -/
inductive Port where
  | replay_output_message
  | replay_output_total
  | stats_input_sample
  | stats_output_stats
  | collector_input_message
  | collector_output_message
  | term_input_message
  | term_input_total
deriving DecidableEq

/-- Embedding of `OfflineStats.network` from the notebook: the declared
connection list, in source order. -/
def OfflineStats_network : List (Port × Port) :=
  [ (Port.replay_output_message, Port.stats_input_sample)
  , (Port.stats_output_stats, Port.collector_input_message)
  , (Port.collector_output_message, Port.term_input_message)
  , (Port.replay_output_total, Port.term_input_total) ]

/-- The state of the assembled system the caller can observe after a run:
the collector's accumulated message list. -/
structure OfflineStatsSys where
  collector_messages : List StatOut
deriving DecidableEq

/-- Embedding of the notebook's `OfflineStats.output` property: it exposes
the collector's accumulated list. -/
def OfflineStats_output (s : OfflineStatsSys) : List StatOut :=
  s.collector_messages

/-- An event emitted by the replay source: a recorded message on its message
output, or a running-total count on its total output. -/
inductive ReplayEvent where
  | msg (a : AxisArr)
  | total (n : ℕ)
deriving DecidableEq

/-- Helper for `replayTrace`: emit the remaining recording starting from a
given already-emitted count, interleaving each message with the running
total. -/
def traceAux : ℕ → List AxisArr → List ReplayEvent
  | _, [] => []
  | i, a :: rest => ReplayEvent.msg a :: ReplayEvent.total (i + 1) :: traceAux (i + 1) rest

/-- Modelled from the spec (section 6, Replay Source contract; the
`ezmsg.util.messagereplay` units are external collaborators specified only at
their interface): the source re-emits the recording in order, with a
monotonically increasing running total interleaved, ending with a final total
equal to the number of arrays emitted. -/
def replayTrace (rec : List AxisArr) : List ReplayEvent :=
  traceAux 0 rec

/-- Modelled from the spec (sections 5 and 6): sequential execution of the
wired graph.  Each replayed message flows through the transform and any
emitted statistic is appended to the collector; each total-count signal is
observed by the termination policy, which halts the graph the first time the
observed total reaches or exceeds its target.  Returns the collector's list
at the end of the run and whether the run was halted by the policy. -/
def runEvents (cfg : SpectralStatsSettings) (target : ℕ) :
    AccState → List StatOut → List ReplayEvent → List StatOut × Bool
  | _, coll, [] => (coll, false)
  | st, coll, ReplayEvent.msg a :: rest =>
    match stepTransform cfg st a with
    | (st2, none) => runEvents cfg target st2 coll rest
    | (st2, some o) => runEvents cfg target st2 (coll ++ [o]) rest
  | st, coll, ReplayEvent.total n :: rest =>
    if target ≤ n then (coll, true) else runEvents cfg target st coll rest

/-- A full offline run of the assembled pipeline on a recording: replay the
recording, drive the graph until the termination policy fires (its target is
the recording's declared total count), and expose the collector. -/
def offlineRun (cfg : SpectralStatsSettings) (rec : List AxisArr) : OfflineStatsSys :=
  OfflineStatsSys.mk (runEvents cfg rec.length (AccState.mk []) [] (replayTrace rec)).1

/-- Python's `l[-1]` on a list: the last element; the access fails (`none`,
an `IndexError` in the source) when the list is empty. -/
def pyLastIndex (l : List StatOut) : Option StatOut :=
  l.getLast?

/-- Embedding of the notebook's post-run access `stats = system.output[-1]`. -/
def offlineAnalysisStats (cfg : SpectralStatsSettings) (rec : List AxisArr) :
    Option StatOut :=
  pyLastIndex (OfflineStats_output (offlineRun cfg rec))

/-- `n` copies of a sample block appended end to end: the accumulator contents
after `n` identical chunks have been buffered. -/
def repAppend (xs : List Sample) : ℕ → List Sample
  | 0 => []
  | Nat.succ j => xs ++ repAppend xs j

/-- The notebook's configuration (`offline_analysis.ipynb`): time axis
`time`, frequency axis `freq`, `freq_range = (0, 50)`,
`integration_time = 4.0`, `multiple_comparisons = False`. -/
def cfg0 : SpectralStatsSettings :=
  SpectralStatsSettings.mk "time" "freq" 0 50 4 false

/-- A single-channel time-domain chunk sampled at gain 1, holding the given
values along the time axis. -/
def oneChanChunk (vals : List ℚ) : AxisArr :=
  AxisArr.mk [("time", AxisInfo.mk 1 0 "s"), ("ch", AxisInfo.mk 1 0 "uV")]
    (vals.map (fun q => [q]))

/-- One chunk of eight samples: its duration, 8 s, is exactly twice the
configured integration time of `cfg0`. -/
def inp1 : List AxisArr :=
  [oneChanChunk [0, 1, 2, 3, 4, 5, 6, 7]]

/-- Four chunks of three samples each whose boundaries straddle the 4 s
window boundary of `cfg0`; the values identify each sample uniquely. -/
def inp0 : List AxisArr :=
  [oneChanChunk [0, 1, 2], oneChanChunk [3, 4, 5],
   oneChanChunk [6, 7, 8], oneChanChunk [9, 10, 11]]

/-- A small valid configuration for concrete witnesses: 1 s windows,
`freq_range = (0, 1)`. -/
def cfgW : SpectralStatsSettings :=
  SpectralStatsSettings.mk "time" "freq" 0 1 1 false

/-- A uniform chunk of two samples at sampling period one half: duration
exactly the 1 s integration time of `cfgW`. -/
def cW : AxisArr :=
  AxisArr.mk [("time", AxisInfo.mk (1 / 2) 0 "s"), ("ch", AxisInfo.mk 1 0 "uV")]
    [[1], [2]]

/-- A uniform chunk of one sample at sampling period one half: two of them
fill a 1 s window of `cfgW` exactly. -/
def cW2 : AxisArr :=
  AxisArr.mk [("time", AxisInfo.mk (1 / 2) 0 "s")] [[3]]

/-- An all-zero two-sample window (zero variance). -/
def winZ : List Sample :=
  [(1, [0]), (1, [0])]

/-- A malformed chunk: its time axis is named `t2`, so it lacks the
configured `time` axis of `cfg0`. -/
def badW : AxisArr :=
  AxisArr.mk [("t2", AxisInfo.mk 1 0 "s"), ("ch", AxisInfo.mk 1 0 "uV")]
    [[5], [6]]

/-- An invalid configuration: the lower bound of `freq_range` equals its
upper bound. -/
def sBad : SpectralStatsSettings :=
  SpectralStatsSettings.mk "time" "freq" 0 0 4 false

end EzmsgSsvep


namespace EzmsgSsvep

/-! ### Basic lemmas about durations and buffers -/

theorem durOf_nil : durOf [] = 0 := rfl

theorem durOf_cons (x : Sample) (l : List Sample) :
    durOf (x :: l) = x.1 + durOf l := by
  simp [durOf]

theorem durOf_append (a b : List Sample) :
    durOf (a ++ b) = durOf a + durOf b := by
  simp [durOf]

theorem durOf_tagSamples (g : ℚ) (rows : List (List ℚ)) :
    durOf (tagSamples g rows) = (rows.length : ℚ) * g := by
  induction rows with
  | nil => simp [tagSamples, durOf]
  | cons r rest ih =>
    have hstep : tagSamples g (r :: rest) = (g, r) :: tagSamples g rest := rfl
    rw [hstep, durOf_cons, ih]
    simp only [List.length_cons]
    push_cast
    ring

theorem durOf_nonneg (l : List Sample) (h : ∀ x ∈ l, 0 ≤ x.1) : 0 ≤ durOf l := by
  induction l with
  | nil => simp [durOf]
  | cons x rest ih =>
    rw [durOf_cons]
    have h1 : 0 ≤ x.1 := h x (by simp)
    have h2 : 0 ≤ durOf rest := ih (fun y hy => h y (by simp [hy]))
    linarith

theorem repAppend_zero (xs : List Sample) : repAppend xs 0 = [] := rfl

theorem repAppend_succ (xs : List Sample) (j : ℕ) :
    repAppend xs (j + 1) = xs ++ repAppend xs j := rfl

theorem repAppend_snoc (xs : List Sample) (j : ℕ) :
    repAppend xs j ++ xs = repAppend xs (j + 1) := by
  induction j with
  | zero => simp [repAppend]
  | succ i ih =>
    rw [repAppend_succ, repAppend_succ, List.append_assoc, ih]

theorem length_repAppend (xs : List Sample) (j : ℕ) :
    (repAppend xs j).length = j * xs.length := by
  induction j with
  | zero => simp [repAppend]
  | succ i ih =>
    rw [repAppend_succ]
    simp [ih]
    ring

theorem durOf_repAppend (xs : List Sample) (j : ℕ) :
    durOf (repAppend xs j) = (j : ℚ) * durOf xs := by
  induction j with
  | zero => simp [repAppend, durOf]
  | succ i ih =>
    rw [repAppend_succ, durOf_append, ih]
    push_cast
    ring

theorem mem_repAppend (xs : List Sample) (j : ℕ) (x : Sample)
    (h : x ∈ repAppend xs j) : x ∈ xs := by
  induction j with
  | zero => simp [repAppend] at h
  | succ i ih =>
    rw [repAppend_succ, List.mem_append] at h
    rcases h with h | h
    · exact h
    · exact ih h

theorem repAppend_add (xs : List Sample) (a b : ℕ) :
    repAppend xs (a + b) = repAppend xs a ++ repAppend xs b := by
  induction a with
  | zero => simp [repAppend]
  | succ i ih =>
    have : i + 1 + b = (i + b) + 1 := by omega
    rw [this, repAppend_succ, repAppend_succ, ih, List.append_assoc]

theorem flatten_replicate_repAppend (xs : List Sample) (k : ℕ) :
    (List.replicate k xs).flatten = repAppend xs k := by
  induction k with
  | zero => simp [repAppend]
  | succ i ih => simp [List.replicate_succ, repAppend_succ, ih]

theorem takeDur_full (g : ℚ) (hg : 0 < g) :
    ∀ l : List Sample, (∀ x ∈ l, x.1 = g) →
      takeDur ((l.length : ℚ) * g) l = l := by
  intro l
  induction l with
  | nil => intro _; rfl
  | cons x rest ih =>
    intro hall
    have hx : x.1 = g := hall x (by simp)
    have hpos : 0 < ((rest.length + 1 : ℕ) : ℚ) * g := by
      apply mul_pos _ hg
      push_cast
      positivity
    rw [List.length_cons, takeDur]
    rw [if_neg (by push_cast at hpos ⊢; linarith)]
    have harith : ((rest.length + 1 : ℕ) : ℚ) * g - x.1 = (rest.length : ℚ) * g := by
      rw [hx]; push_cast; ring
    rw [harith, ih (fun y hy => hall y (by simp [hy]))]

end EzmsgSsvep

namespace EzmsgSsvep

/-! ### The aligned (uniform-chunk) run: window completeness and non-overlap -/

theorem mem_tagSamples_fst (g : ℚ) (rows : List (List ℚ)) (x : Sample)
    (h : x ∈ tagSamples g rows) : x.1 = g := by
  simp only [tagSamples, List.mem_map] at h
  obtain ⟨v, _, rfl⟩ := h
  rfl

theorem length_tagSamples (g : ℚ) (rows : List (List ℚ)) :
    (tagSamples g rows).length = rows.length := by
  simp [tagSamples]

theorem shapeOk_repAppend (g : ℚ) (rows : List (List ℚ)) (j : ℕ) :
    shapeOk (AccState.mk (repAppend (tagSamples g rows) j)) rows = true := by
  cases j with
  | zero =>
    cases rows <;> rfl
  | succ i =>
    cases rows with
    | nil =>
      cases hrep : repAppend (tagSamples g []) (i + 1) with
      | nil => simp [shapeOk, hrep]
      | cons a l => simp [shapeOk, hrep]
    | cons r rs =>
      have hbuf : repAppend (tagSamples g (r :: rs)) (i + 1) =
          (g, r) :: (tagSamples g rs ++ repAppend (tagSamples g (r :: rs)) i) := by
        rw [repAppend_succ]
        rfl
      rw [hbuf]
      simp [shapeOk]

theorem takeDur_repAppend (g : ℚ) (hg : 0 < g) (rows : List (List ℚ)) (m : ℕ) :
    takeDur (((m * rows.length : ℕ) : ℚ) * g) (repAppend (tagSamples g rows) m) =
      repAppend (tagSamples g rows) m := by
  have hlen : (repAppend (tagSamples g rows) m).length = m * rows.length := by
    rw [length_repAppend, length_tagSamples]
  have := takeDur_full g hg (repAppend (tagSamples g rows) m)
    (fun x hx => mem_tagSamples_fst g rows x (mem_repAppend _ _ _ hx))
  rw [hlen] at this
  exact this

theorem uniform_step (cfg : SpectralStatsSettings) (c : AxisArr) (tinfo : AxisInfo)
    (m : ℕ)
    (hax : c.getAxis cfg.time_axis = some tinfo)
    (hg : 0 < tinfo.gain)
    (hs1 : 1 ≤ c.samples.length)
    (hT : cfg.integration_time = ((m * c.samples.length : ℕ) : ℚ) * tinfo.gain)
    (j : ℕ) (hj : j < m) :
    stepTransform cfg (AccState.mk (repAppend (tagSamples tinfo.gain c.samples) j)) c =
      if j + 1 = m then
        (AccState.mk [],
          some (mkStats cfg c.axes (repAppend (tagSamples tinfo.gain c.samples) m)))
      else
        (AccState.mk (repAppend (tagSamples tinfo.gain c.samples) (j + 1)), none) := by
  have hd : (0 : ℚ) < (c.samples.length : ℚ) * tinfo.gain := by
    apply mul_pos _ hg
    exact_mod_cast Nat.lt_of_lt_of_le Nat.zero_lt_one hs1
  have hT2 : cfg.integration_time = (m : ℚ) * ((c.samples.length : ℚ) * tinfo.gain) := by
    rw [hT]; push_cast; ring
  have hdur : ∀ i : ℕ,
      durOf (repAppend (tagSamples tinfo.gain c.samples) i) =
        (i : ℚ) * ((c.samples.length : ℚ) * tinfo.gain) := by
    intro i
    rw [durOf_repAppend, durOf_tagSamples]
  have hbuf : repAppend (tagSamples tinfo.gain c.samples) j ++
      tagSamples tinfo.gain c.samples =
      repAppend (tagSamples tinfo.gain c.samples) (j + 1) :=
    repAppend_snoc _ _
  simp only [stepTransform, hax, shapeOk_repAppend, if_true, hbuf]
  by_cases hjm : j + 1 = m
  · have heq : durOf (repAppend (tagSamples tinfo.gain c.samples) (j + 1)) =
        cfg.integration_time := by
      rw [hdur, hT2, hjm]
    rw [if_neg (by rw [heq]; exact lt_irrefl _), if_pos hjm]
    rw [hjm, hT, takeDur_repAppend tinfo.gain hg c.samples m]
  · have hlt : j + 1 < m := Nat.lt_of_le_of_ne hj hjm
    have hlt2 : durOf (repAppend (tagSamples tinfo.gain c.samples) (j + 1)) <
        cfg.integration_time := by
      rw [hdur, hT2]
      apply mul_lt_mul_of_pos_right _ hd
      exact_mod_cast hlt
    rw [if_pos hlt2, if_neg hjm]

end EzmsgSsvep

namespace EzmsgSsvep

theorem runFrom_fill (cfg : SpectralStatsSettings) (c : AxisArr) (tinfo : AxisInfo)
    (m : ℕ)
    (hax : c.getAxis cfg.time_axis = some tinfo)
    (hg : 0 < tinfo.gain)
    (hs1 : 1 ≤ c.samples.length)
    (hT : cfg.integration_time = ((m * c.samples.length : ℕ) : ℚ) * tinfo.gain) :
    ∀ q i : ℕ, i + q < m →
      runFrom cfg (AccState.mk (repAppend (tagSamples tinfo.gain c.samples) i))
        (List.replicate q c) = [] := by
  intro q
  induction q with
  | zero =>
    intro i _
    rfl
  | succ p ih =>
    intro i hi
    have hj : i < m := by omega
    have hnm : i + 1 ≠ m := by omega
    rw [List.replicate_succ]
    simp only [runFrom]
    rw [uniform_step cfg c tinfo m hax hg hs1 hT i hj, if_neg hnm]
    exact ih (i + 1) (by omega)

theorem runFrom_block (cfg : SpectralStatsSettings) (c : AxisArr) (tinfo : AxisInfo)
    (m : ℕ)
    (hax : c.getAxis cfg.time_axis = some tinfo)
    (hg : 0 < tinfo.gain)
    (hs1 : 1 ≤ c.samples.length)
    (hT : cfg.integration_time = ((m * c.samples.length : ℕ) : ℚ) * tinfo.gain) :
    ∀ q : ℕ, 1 ≤ q → q ≤ m → ∀ rest : List AxisArr,
      runFrom cfg (AccState.mk (repAppend (tagSamples tinfo.gain c.samples) (m - q)))
          (List.replicate q c ++ rest) =
        mkStats cfg c.axes (repAppend (tagSamples tinfo.gain c.samples) m) ::
          runFrom cfg (AccState.mk []) rest := by
  intro q
  induction q with
  | zero =>
    intro h1 _ _
    omega
  | succ p ih =>
    intro _ hqm rest
    have hj : m - (p + 1) < m := by omega
    rw [List.replicate_succ, List.cons_append]
    simp only [runFrom]
    rw [uniform_step cfg c tinfo m hax hg hs1 hT (m - (p + 1)) hj]
    cases Nat.eq_zero_or_pos p with
    | inl hp0 =>
      subst hp0
      have hfull : m - 1 + 1 = m := by omega
      rw [if_pos hfull]
      simp
    | inr hp1 =>
      have hne : m - (p + 1) + 1 ≠ m := by omega
      rw [if_neg hne]
      have hidx : m - (p + 1) + 1 = m - p := by omega
      rw [hidx]
      exact ih hp1 (by omega) rest

theorem runTransform_replicate (cfg : SpectralStatsSettings) (c : AxisArr)
    (tinfo : AxisInfo) (m : ℕ)
    (hax : c.getAxis cfg.time_axis = some tinfo)
    (hg : 0 < tinfo.gain)
    (hs1 : 1 ≤ c.samples.length)
    (hm : 1 ≤ m)
    (hT : cfg.integration_time = ((m * c.samples.length : ℕ) : ℚ) * tinfo.gain) :
    ∀ k r : ℕ, r < m →
      runTransform cfg (List.replicate (k * m + r) c) =
        List.replicate k
          (mkStats cfg c.axes (repAppend (tagSamples tinfo.gain c.samples) m)) := by
  intro k
  induction k with
  | zero =>
    intro r hr
    have h0 : 0 * m + r = r := by omega
    rw [h0, List.replicate_zero, runTransform]
    exact runFrom_fill cfg c tinfo m hax hg hs1 hT r 0 (by omega)
  | succ p ih =>
    intro r hr
    have hsplit : (p + 1) * m + r = m + (p * m + r) := by ring
    rw [hsplit, List.replicate_add, runTransform]
    have hblock := runFrom_block cfg c tinfo m hax hg hs1 hT m hm (le_refl m)
      (List.replicate (p * m + r) c)
    have hmm : m - m = 0 := by omega
    rw [hmm, repAppend_zero] at hblock
    rw [hblock]
    have ihr := ih r hr
    rw [runTransform] at ihr
    rw [ihr, List.replicate_succ]

end EzmsgSsvep

namespace EzmsgSsvep

theorem repAppend_mul (xs : List Sample) (m k : ℕ) :
    repAppend (repAppend xs m) k = repAppend xs (k * m) := by
  induction k with
  | zero => simp [repAppend]
  | succ p ih =>
    rw [repAppend_succ, ih, ← repAppend_add]
    have : m + p * m = (p + 1) * m := by ring
    rw [this]

theorem totalDuration_replicate (cfg : SpectralStatsSettings) (c : AxisArr) (n : ℕ) :
    totalDuration cfg (List.replicate n c) = (n : ℚ) * chunkDur cfg c := by
  induction n with
  | zero => simp [totalDuration]
  | succ p ih =>
    rw [List.replicate_succ]
    have hstep : totalDuration cfg (c :: List.replicate p c) =
        chunkDur cfg c + totalDuration cfg (List.replicate p c) := by
      simp [totalDuration]
    rw [hstep, ih]
    push_cast
    ring

theorem chunkDur_eq (cfg : SpectralStatsSettings) (c : AxisArr) (tinfo : AxisInfo)
    (hax : c.getAxis cfg.time_axis = some tinfo) :
    chunkDur cfg c = (c.samples.length : ℚ) * tinfo.gain := by
  simp [chunkDur, hax]

theorem pvals_length_mkStats (cfg : SpectralStatsSettings)
    (axes : List (String × AxisInfo)) (win : List Sample) :
    (mkStats cfg axes win).pvals.length = numBinsOf cfg win.length := by
  simp [mkStats, numBinsOf]

theorem window_mkStats (cfg : SpectralStatsSettings)
    (axes : List (String × AxisInfo)) (win : List Sample) :
    (mkStats cfg axes win).window = win := rfl

theorem inputSamples_replicate (cfg : SpectralStatsSettings) (c : AxisArr)
    (tinfo : AxisInfo) (hax : c.getAxis cfg.time_axis = some tinfo) (n : ℕ) :
    inputSamples cfg (List.replicate n c) =
      repAppend (tagSamples tinfo.gain c.samples) n := by
  induction n with
  | zero => simp [inputSamples, repAppend]
  | succ p ih =>
    rw [List.replicate_succ, repAppend_succ]
    have hstep : inputSamples cfg (c :: List.replicate p c) =
        chunkTagged cfg c ++ inputSamples cfg (List.replicate p c) := by
      simp [inputSamples]
    rw [hstep, ih]
    simp [chunkTagged, hax]

/-- C1 (amended): for aligned input sequences — identical chunks carrying the
configured time axis at a positive gain, whose chunk duration divides the
integration time evenly so that window boundaries coincide with chunk
boundaries — a recording of accumulated duration exactly `k` times
`integration_time` makes the Spectral Statistics Transform emit exactly `k`
output arrays, each with frequency-axis length equal to the number of
frequency bins falling inside `freq_range`. -/
theorem window_completeness_uniform (cfg : SpectralStatsSettings) (c : AxisArr)
    (tinfo : AxisInfo) (m k : ℕ)
    (hax : c.getAxis cfg.time_axis = some tinfo)
    (hg : 0 < tinfo.gain)
    (hs1 : 1 ≤ c.samples.length)
    (hm : 1 ≤ m)
    (hT : cfg.integration_time = ((m * c.samples.length : ℕ) : ℚ) * tinfo.gain) :
    totalDuration cfg (List.replicate (k * m) c) = (k : ℚ) * cfg.integration_time ∧
    (runTransform cfg (List.replicate (k * m) c)).length = k ∧
    ∀ o ∈ runTransform cfg (List.replicate (k * m) c),
      o.pvals.length = numBinsOf cfg (m * c.samples.length) := by
  have hrun0 := runTransform_replicate cfg c tinfo m hax hg hs1 hm hT k 0
    (by omega)
  have hk0 : k * m + 0 = k * m := by omega
  rw [hk0] at hrun0
  refine ⟨?_, ?_, ?_⟩
  · rw [totalDuration_replicate, chunkDur_eq cfg c tinfo hax, hT]
    push_cast
    ring
  · rw [hrun0, List.length_replicate]
  · intro o ho
    rw [hrun0] at ho
    have hco := List.eq_of_mem_replicate ho
    rw [hco, pvals_length_mkStats]
    rw [length_repAppend, length_tagSamples]

/-- C1 counterexample: with the notebook configuration (4 s windows), a single
chunk of 8 s duration has accumulated duration exactly 2 times
`integration_time`, yet the transform emits exactly one output, not two —
once a window completes, the excess buffered samples are dropped rather than
carried into a next window, so `k` outputs are not reached. -/
theorem window_completeness_cex :
    totalDuration cfg0 inp1 = 2 * cfg0.integration_time ∧
    (runTransform cfg0 inp1).length = 1 ∧
    ¬ (runTransform cfg0 inp1).length = 2 := by
  refine ⟨by with_unfolding_all decide, by with_unfolding_all decide,
    by with_unfolding_all decide⟩

/-- Witness for the amended C1 theorem at a concrete aligned input: two
half-second-period two-sample chunks under the 1 s configuration `cfgW`
produce exactly two outputs. -/
theorem window_completeness_uniform_witness :
    0 < (AxisInfo.mk (1 / 2 : ℚ) 0 "s").gain ∧
    (runTransform cfgW (List.replicate (2 * 1) cW)).length = 2 := by
  refine ⟨by with_unfolding_all decide, ?_⟩
  exact (window_completeness_uniform cfgW cW (AxisInfo.mk (1 / 2 : ℚ) 0 "s") 1 2
    (by with_unfolding_all decide) (by with_unfolding_all decide)
    (by decide) (by decide) (by with_unfolding_all decide)).2.1

/-- C5 (amended): for aligned input sequences (identical chunks whose
duration divides `integration_time` evenly), the spans of samples consumed by
successive completed windows partition the input's sample sequence in order:
their concatenation, followed by the final partial remainder — which is
shorter than `integration_time` and is discarded, never emitted —
reconstructs the original sample sequence with none duplicated and none
skipped. -/
theorem spans_partition_uniform (cfg : SpectralStatsSettings) (c : AxisArr)
    (tinfo : AxisInfo) (m k r : ℕ)
    (hax : c.getAxis cfg.time_axis = some tinfo)
    (hg : 0 < tinfo.gain)
    (hs1 : 1 ≤ c.samples.length)
    (hm : 1 ≤ m)
    (hT : cfg.integration_time = ((m * c.samples.length : ℕ) : ℚ) * tinfo.gain)
    (hr : r < m) :
    ((runTransform cfg (List.replicate (k * m + r) c)).map StatOut.window).flatten ++
        (inputSamples cfg (List.replicate (k * m + r) c)).drop
          (k * (m * c.samples.length)) =
      inputSamples cfg (List.replicate (k * m + r) c) ∧
    durOf ((inputSamples cfg (List.replicate (k * m + r) c)).drop
        (k * (m * c.samples.length))) < cfg.integration_time := by
  have hrun := runTransform_replicate cfg c tinfo m hax hg hs1 hm hT k r hr
  have hin := inputSamples_replicate cfg c tinfo hax (k * m + r)
  have hflat : ((runTransform cfg (List.replicate (k * m + r) c)).map
      StatOut.window).flatten = repAppend (tagSamples tinfo.gain c.samples) (k * m) := by
    rw [hrun, List.map_replicate, window_mkStats, flatten_replicate_repAppend,
      repAppend_mul]
  have hsplit : repAppend (tagSamples tinfo.gain c.samples) (k * m + r) =
      repAppend (tagSamples tinfo.gain c.samples) (k * m) ++
        repAppend (tagSamples tinfo.gain c.samples) r :=
    repAppend_add _ _ _
  have hlen : (repAppend (tagSamples tinfo.gain c.samples) (k * m)).length =
      k * (m * c.samples.length) := by
    rw [length_repAppend, length_tagSamples]
    ring
  have hdrop : (inputSamples cfg (List.replicate (k * m + r) c)).drop
      (k * (m * c.samples.length)) =
      repAppend (tagSamples tinfo.gain c.samples) r := by
    rw [hin, hsplit, ← hlen, List.drop_left]
  refine ⟨?_, ?_⟩
  · rw [hflat, hdrop, hin, hsplit]
  · rw [hdrop, durOf_repAppend, durOf_tagSamples, hT]
    have hd : (0 : ℚ) < (c.samples.length : ℚ) * tinfo.gain := by
      apply mul_pos _ hg
      exact_mod_cast Nat.lt_of_lt_of_le Nat.zero_lt_one hs1
    have hcast : ((m * c.samples.length : ℕ) : ℚ) * tinfo.gain =
        (m : ℚ) * ((c.samples.length : ℚ) * tinfo.gain) := by
      push_cast
      ring
    rw [hcast]
    apply mul_lt_mul_of_pos_right _ hd
    exact_mod_cast hr

/-- C5 counterexample: with the notebook configuration (4 s windows) and four
3-sample chunks straddling the window boundary, the two emitted windows
consume samples 0..3 and 6..9 — samples 4 and 5 are dropped mid-stream when
the first window completes, so no final remainder makes the concatenated
window spans reproduce the input sample sequence. -/
theorem spans_partition_cex :
    ¬ ∃ rem : List Sample,
        ((runTransform cfg0 inp0).map StatOut.window).flatten ++ rem =
          inputSamples cfg0 inp0 ∧
        durOf rem < cfg0.integration_time := by
  rintro ⟨rem, hcat, _⟩
  have hflat : ((runTransform cfg0 inp0).map StatOut.window).flatten =
      [(1, [0]), (1, [1]), (1, [2]), (1, [3]), (1, [6]), (1, [7]), (1, [8]), (1, [9])] := by
    with_unfolding_all decide
  have hin : inputSamples cfg0 inp0 =
      [(1, [0]), (1, [1]), (1, [2]), (1, [3]), (1, [4]), (1, [5]),
       (1, [6]), (1, [7]), (1, [8]), (1, [9]), (1, [10]), (1, [11])] := by
    with_unfolding_all decide
  rw [hflat, hin] at hcat
  have h4 : ((1 : ℚ), ([6] : List ℚ)) = ((1 : ℚ), ([4] : List ℚ)) :=
    congrArg (fun l => l.getD 4 ((0 : ℚ), ([] : List ℚ))) hcat
  exact absurd h4 (by with_unfolding_all decide)

/-- Witness for the amended C5 theorem at a concrete aligned input: three
one-sample chunks of half a second under the 1 s configuration `cfgW` leave a
half-second remainder, shorter than the integration time. -/
theorem spans_partition_uniform_witness :
    (1 : ℕ) < 2 ∧
    durOf ((inputSamples cfgW (List.replicate (1 * 2 + 1) cW2)).drop
        (1 * (2 * cW2.samples.length))) < cfgW.integration_time := by
  refine ⟨by decide, ?_⟩
  exact (spans_partition_uniform cfgW cW2 (AxisInfo.mk (1 / 2 : ℚ) 0 "s") 2 1 1
    (by with_unfolding_all decide) (by with_unfolding_all decide)
    (by decide) (by decide) (by with_unfolding_all decide) (by decide)).2

end EzmsgSsvep

namespace EzmsgSsvep

/-! ### Malformed elements, configuration validation, wiring, termination -/

theorem runFrom_drop_malformed (cfg : SpectralStatsSettings) (bad : AxisArr)
    (hbad : bad.getAxis cfg.time_axis = none) :
    ∀ (pre post : List AxisArr) (st : AccState),
      runFrom cfg st (pre ++ bad :: post) = runFrom cfg st (pre ++ post) := by
  intro pre
  induction pre with
  | nil =>
    intro post st
    have hstep : stepTransform cfg st bad = (st, none) := by
      simp [stepTransform, hbad]
    simp only [List.nil_append, runFrom, hstep]
  | cons a rest ih =>
    intro post st
    simp only [List.cons_append, runFrom]
    cases stepTransform cfg st a with
    | mk st2 out =>
      cases out with
      | none => exact ih post st2
      | some o => exact congrArg (fun l => o :: l) (ih post st2)

/-- C8: a malformed element (one lacking the configured time axis) amid
otherwise well-formed input is dropped: the accumulation cycle is not
corrupted, processing continues with the next element, and the run produces
exactly the same outputs — in particular the same number of outputs — as the
same sequence without the malformed element; it never aborts the run. -/
theorem malformed_element_dropped (cfg : SpectralStatsSettings)
    (pre post : List AxisArr) (bad : AxisArr)
    (hbad : bad.getAxis cfg.time_axis = none) :
    runTransform cfg (pre ++ bad :: post) = runTransform cfg (pre ++ post) ∧
    (runTransform cfg (pre ++ bad :: post)).length =
      (runTransform cfg (pre ++ post)).length := by
  have h := runFrom_drop_malformed cfg bad hbad pre post (AccState.mk [])
  exact ⟨h, by rw [runTransform, runTransform, h]⟩

/-- Witness for C8 at a concrete input: dropping the renamed-axis chunk
`badW` from a two-chunk recording leaves the run unchanged. -/
theorem malformed_element_dropped_witness :
    badW.getAxis cfg0.time_axis = none ∧
    runTransform cfg0 ([oneChanChunk [1, 2]] ++ badW :: [oneChanChunk [3, 4]]) =
      runTransform cfg0 ([oneChanChunk [1, 2]] ++ [oneChanChunk [3, 4]]) := by
  refine ⟨by decide, ?_⟩
  exact (malformed_element_dropped cfg0 [oneChanChunk [1, 2]] [oneChanChunk [3, 4]]
    badW (by decide)).1

/-- C9: an invalid configuration — `freq_range` lower bound at or above the
upper bound, or non-positive `integration_time` — makes construction fail
with an error before any data element is processed: the run's result is an
error and is independent of the input data. -/
theorem invalid_config_rejected (s : SpectralStatsSettings)
    (h : s.freq_hi ≤ s.freq_lo ∨ s.integration_time ≤ 0) :
    ∀ input : List AxisArr,
      isError (runSystem s input) = true ∧ runSystem s input = runSystem s [] := by
  intro input
  rcases h with h | h
  · simp [runSystem, validateSettings, h, isError]
  · by_cases h2 : s.freq_hi ≤ s.freq_lo
    · simp [runSystem, validateSettings, h2, isError]
    · simp [runSystem, validateSettings, h2, h, isError]

/-- Witness for C9 at the concrete invalid configuration `sBad`
(`freq_range = (0, 0)`): the run errors on a nonempty input. -/
theorem invalid_config_rejected_witness :
    (sBad.freq_hi ≤ sBad.freq_lo ∨ sBad.integration_time ≤ 0) ∧
    isError (runSystem sBad [oneChanChunk [1]]) = true := by
  refine ⟨Or.inl (le_refl 0), ?_⟩
  exact (invalid_config_rejected sBad (Or.inl (le_refl 0)) [oneChanChunk [1]]).1

/-- C4: the pipeline assembly declares exactly four connections — replay
message output to transform input, transform output to collector input,
collector output to the termination policy's message input, and the replay
total-count output to the termination policy's total input — and after the
graph has run it exposes the collector's accumulated list as its output. -/
theorem pipeline_wiring :
    OfflineStats_network =
      [ (Port.replay_output_message, Port.stats_input_sample)
      , (Port.stats_output_stats, Port.collector_input_message)
      , (Port.collector_output_message, Port.term_input_message)
      , (Port.replay_output_total, Port.term_input_total) ] ∧
    OfflineStats_network.length = 4 ∧
    (∀ s : OfflineStatsSys, OfflineStats_output s = s.collector_messages) ∧
    ∀ (cfg : SpectralStatsSettings) (rec : List AxisArr),
      OfflineStats_output (offlineRun cfg rec) =
        (runEvents cfg rec.length (AccState.mk []) [] (replayTrace rec)).1 :=
  ⟨rfl, rfl, fun _ => rfl, fun _ _ => rfl⟩

theorem runEvents_msg_none (cfg : SpectralStatsSettings) (target : ℕ)
    (st st2 : AccState) (coll : List StatOut) (a : AxisArr)
    (rest : List ReplayEvent)
    (h : stepTransform cfg st a = (st2, none)) :
    runEvents cfg target st coll (ReplayEvent.msg a :: rest) =
      runEvents cfg target st2 coll rest := by
  have e : runEvents cfg target st coll (ReplayEvent.msg a :: rest) =
      match stepTransform cfg st a with
      | (st2, none) => runEvents cfg target st2 coll rest
      | (st2, some o) => runEvents cfg target st2 (coll ++ [o]) rest := rfl
  rw [e, h]

theorem runEvents_msg_some (cfg : SpectralStatsSettings) (target : ℕ)
    (st st2 : AccState) (coll : List StatOut) (a : AxisArr) (o : StatOut)
    (rest : List ReplayEvent)
    (h : stepTransform cfg st a = (st2, some o)) :
    runEvents cfg target st coll (ReplayEvent.msg a :: rest) =
      runEvents cfg target st2 (coll ++ [o]) rest := by
  have e : runEvents cfg target st coll (ReplayEvent.msg a :: rest) =
      match stepTransform cfg st a with
      | (st2, none) => runEvents cfg target st2 coll rest
      | (st2, some o) => runEvents cfg target st2 (coll ++ [o]) rest := rfl
  rw [e, h]

theorem runEvents_total_step (cfg : SpectralStatsSettings) (target : ℕ)
    (st : AccState) (coll : List StatOut) (n : ℕ) (rest : List ReplayEvent) :
    runEvents cfg target st coll (ReplayEvent.total n :: rest) =
      if target ≤ n then (coll, true) else runEvents cfg target st coll rest := rfl

theorem traceAux_cons (i : ℕ) (a : AxisArr) (rest : List AxisArr) :
    traceAux i (a :: rest) =
      ReplayEvent.msg a :: ReplayEvent.total (i + 1) :: traceAux (i + 1) rest := rfl

theorem runEvents_traceAux (cfg : SpectralStatsSettings) :
    ∀ rec : List AxisArr, rec ≠ [] →
      ∀ (i : ℕ) (st : AccState) (coll : List StatOut),
        runEvents cfg (i + rec.length) st coll (traceAux i rec) =
          (coll ++ runFrom cfg st rec, true) := by
  intro rec
  induction rec with
  | nil =>
    intro h
    exact absurd rfl h
  | cons a rest ih =>
    intro _ i st coll
    cases rest with
    | nil =>
      have hlen : i + ([a] : List AxisArr).length = i + 1 := by simp
      rw [hlen, traceAux_cons]
      cases hstep : stepTransform cfg st a with
      | mk st2 out =>
        cases out with
        | none =>
          rw [runEvents_msg_none cfg (i + 1) st st2 coll a _ hstep,
            runEvents_total_step, if_pos (le_refl (i + 1))]
          simp [runFrom, hstep]
        | some o =>
          rw [runEvents_msg_some cfg (i + 1) st st2 coll a o _ hstep,
            runEvents_total_step, if_pos (le_refl (i + 1))]
          simp [runFrom, hstep]
    | cons b rest2 =>
      have hne2 : b :: rest2 ≠ [] := by simp
      have hlen : i + (a :: b :: rest2).length = (i + 1) + (b :: rest2).length := by
        simp only [List.length_cons]
        omega
      rw [hlen, traceAux_cons]
      have hno : ¬ ((i + 1) + (b :: rest2).length ≤ i + 1) := by
        simp only [List.length_cons]
        omega
      cases hstep : stepTransform cfg st a with
      | mk st2 out =>
        cases out with
        | none =>
          rw [runEvents_msg_none cfg _ st st2 coll a _ hstep,
            runEvents_total_step, if_neg hno, ih hne2 (i + 1) st2 coll]
          simp [runFrom, hstep]
        | some o =>
          rw [runEvents_msg_some cfg _ st st2 coll a o _ hstep,
            runEvents_total_step, if_neg hno, ih hne2 (i + 1) st2 (coll ++ [o])]
          simp [runFrom, hstep]

/-- C3: for every nonempty recording, the assembled graph halts — the
termination policy fires the first time the observed total-count signal
reaches its target, which is the replay source's final total, emitted only
after the entire recording — and at that halt the collector holds the
transform's output for every completed window, so none is missing. -/
theorem termination_after_replay (cfg : SpectralStatsSettings)
    (rec : List AxisArr) (hne : rec ≠ []) :
    runEvents cfg rec.length (AccState.mk []) [] (replayTrace rec) =
      (runTransform cfg rec, true) := by
  have h := runEvents_traceAux cfg rec hne 0 (AccState.mk []) []
  rw [Nat.zero_add] at h
  rw [replayTrace, h, runTransform]
  simp

/-- Witness for C3 at a concrete one-chunk recording. -/
theorem termination_after_replay_witness :
    ([cW] : List AxisArr) ≠ [] ∧
    runEvents cfgW ([cW] : List AxisArr).length (AccState.mk []) []
        (replayTrace [cW]) = (runTransform cfgW [cW], true) := by
  refine ⟨by decide, ?_⟩
  exact termination_after_replay cfgW [cW] (by decide)

theorem runFrom_short (cfg : SpectralStatsSettings) :
    ∀ (input : List AxisArr) (st : AccState),
      (∀ a ∈ input, 0 ≤ chunkDur cfg a) →
      0 ≤ durOf st.buf →
      durOf st.buf + totalDuration cfg input < cfg.integration_time →
      runFrom cfg st input = [] := by
  intro input
  induction input with
  | nil =>
    intro st _ _ _
    rfl
  | cons a rest ih =>
    intro st hpos hst hlt
    have hrestpos : ∀ x ∈ rest, 0 ≤ chunkDur cfg x := fun x hx => hpos x (by simp [hx])
    have hapos : 0 ≤ chunkDur cfg a := hpos a (by simp)
    have hrestsum : 0 ≤ totalDuration cfg rest := by
      apply List.sum_nonneg
      intro x hx
      obtain ⟨y, hy, rfl⟩ := List.mem_map.mp hx
      exact hrestpos y hy
    have htot : totalDuration cfg (a :: rest) = chunkDur cfg a + totalDuration cfg rest := by
      simp [totalDuration]
    rw [htot] at hlt
    simp only [runFrom]
    cases hga : a.getAxis cfg.time_axis with
    | none =>
      have hstep : stepTransform cfg st a = (st, none) := by
        simp [stepTransform, hga]
      rw [hstep]
      have hc0 : chunkDur cfg a = 0 := by simp [chunkDur, hga]
      exact ih st hrestpos hst (by rw [hc0] at hlt; linarith)
    | some t =>
      by_cases hsh : shapeOk st a.samples
      · have hdtag : durOf (tagSamples t.gain a.samples) = chunkDur cfg a := by
          rw [durOf_tagSamples]
          simp [chunkDur, hga]
        have hlt2 : durOf (st.buf ++ tagSamples t.gain a.samples) < cfg.integration_time := by
          rw [durOf_append, hdtag]
          linarith
        have hstep : stepTransform cfg st a =
            (AccState.mk (st.buf ++ tagSamples t.gain a.samples), none) := by
          simp [stepTransform, hga, hsh, hlt2]
        rw [hstep]
        apply ih _ hrestpos
        · rw [durOf_append, hdtag]
          linarith
        · rw [durOf_append, hdtag]
          linarith
      · have hstep : stepTransform cfg st a = (st, none) := by
          simp [stepTransform, hga, hsh]
        rw [hstep]
        exact ih st hrestpos hst (by linarith)

/-- C10: the offline analysis reads only `system.output[-1]`; for any
recording whose accumulated duration is shorter than `integration_time` no
window ever completes, the collector's list after the run is empty, and the
indexing access fails (`none`). -/
theorem short_recording_analysis_fails (cfg : SpectralStatsSettings)
    (rec : List AxisArr)
    (hpos : ∀ a ∈ rec, 0 ≤ chunkDur cfg a)
    (hshort : totalDuration cfg rec < cfg.integration_time) :
    OfflineStats_output (offlineRun cfg rec) = [] ∧
    offlineAnalysisStats cfg rec = none := by
  have hempty : runFrom cfg (AccState.mk []) rec = [] := by
    apply runFrom_short cfg rec (AccState.mk []) hpos
    · simp [durOf]
    · simpa [durOf] using hshort
  have hcoll : OfflineStats_output (offlineRun cfg rec) = [] := by
    cases hrec : rec with
    | nil => rfl
    | cons a rest =>
      have hne : rec ≠ [] := by rw [hrec]; simp
      have h := runEvents_traceAux cfg rec hne 0 (AccState.mk []) []
      rw [Nat.zero_add] at h
      rw [← hrec]
      show (runEvents cfg rec.length (AccState.mk []) [] (replayTrace rec)).1 = []
      rw [replayTrace, h]
      simp [hempty]
  refine ⟨hcoll, ?_⟩
  rw [offlineAnalysisStats, pyLastIndex, hcoll]
  rfl

/-- Witness for C10 at a concrete 2 s recording under the 4 s configuration:
the collector is empty and the `[-1]` access fails. -/
theorem short_recording_analysis_fails_witness :
    totalDuration cfg0 [oneChanChunk [1, 2]] < cfg0.integration_time ∧
    offlineAnalysisStats cfg0 [oneChanChunk [1, 2]] = none := by
  refine ⟨by with_unfolding_all decide, ?_⟩
  exact (short_recording_analysis_fails cfg0 [oneChanChunk [1, 2]]
    (by with_unfolding_all decide) (by with_unfolding_all decide)).2

end EzmsgSsvep

namespace EzmsgSsvep

/-! ### Significance scores: bounds, degenerate windows, correction policy -/

theorem binPower_nonneg (win : List Sample) (b c : ℕ) : 0 ≤ binPower win b c := by
  rw [binPower]
  positivity

theorem noiseFloor_nonneg (cfg : SpectralStatsSettings) (win : List Sample)
    (b c : ℕ) : 0 ≤ noiseFloor cfg win b c := by
  apply List.sum_nonneg
  intro x hx
  obtain ⟨i, _, rfl⟩ := List.mem_map.mp hx
  exact binPower_nonneg win i c

theorem pRaw_pos (cfg : SpectralStatsSettings) (win : List Sample) (b c : ℕ) :
    0 < pRaw cfg win b c := by
  rw [pRaw]
  split
  · exact one_pos
  · have h1 := noiseFloor_nonneg cfg win b c
    have h2 := binPower_nonneg win b c
    apply div_pos <;> linarith

theorem pRaw_le_one (cfg : SpectralStatsSettings) (win : List Sample) (b c : ℕ) :
    pRaw cfg win b c ≤ 1 := by
  rw [pRaw]
  split
  · exact le_refl 1
  · have h1 := noiseFloor_nonneg cfg win b c
    have h2 := binPower_nonneg win b c
    rw [div_le_one (by linarith)]
    linarith

theorem pRaw_degenerate (cfg : SpectralStatsSettings) (win : List Sample)
    (b c : ℕ) (h : degenerateWin win = true) : pRaw cfg win b c = 1 := by
  rw [pRaw, if_pos h]

theorem pEntry_mkStats (cfg : SpectralStatsSettings)
    (axes : List (String × AxisInfo)) (win : List Sample) (b c : ℕ) :
    pEntry (mkStats cfg axes win) b c =
      if b < numBinsOf cfg win.length ∧ c < winChannels win then
        pFinal cfg win ((retainedBins cfg win.length).getD b 0) c
      else 1 := by
  have hpv : (mkStats cfg axes win).pvals =
      (retainedBins cfg win.length).map
        (fun bi => (List.range (winChannels win)).map
          (fun ci => pFinal cfg win bi ci)) := rfl
  rw [pEntry, hpv]
  rw [List.getD_eq_getElem?_getD]
  rw [List.getD_eq_getElem?_getD]
  rw [List.getElem?_map]
  by_cases hb : b < (retainedBins cfg win.length).length
  · rw [List.getElem?_eq_getElem hb]
    simp only [Option.map_some', Option.getD_some]
    rw [List.getElem?_map]
    by_cases hc : c < winChannels win
    · rw [List.getElem?_eq_getElem (by simpa using hc)]
      simp only [Option.map_some', Option.getD_some, List.getElem_range]
      rw [if_pos ⟨hb, hc⟩]
      congr 2
      rw [List.getD_eq_getElem?_getD, List.getElem?_eq_getElem hb]
      rfl
    · rw [List.getElem?_eq_none (by simpa using Nat.le_of_not_lt hc)]
      rw [if_neg (fun hand => hc hand.2)]
      rfl
  · rw [List.getElem?_eq_none (Nat.le_of_not_lt hb)]
    rw [if_neg (fun hand => hb hand.1)]
    rfl

theorem score_of_one : -Real.logb 10 (((1 : ℚ) : ℝ)) = 0 := by
  simp [Real.logb_one]

theorem score_nonneg (p : ℚ) (h0 : 0 < p) (h1 : p ≤ 1) :
    0 ≤ -Real.logb 10 ((p : ℚ) : ℝ) := by
  rw [neg_nonneg]
  apply Real.logb_nonpos (by norm_num : (1 : ℝ) < 10)
  · exact_mod_cast h0.le
  · exact_mod_cast h1

theorem numTests_pos (cfg : SpectralStatsSettings) (win : List Sample) (b c : ℕ)
    (h : b < numBinsOf cfg win.length ∧ c < winChannels win) :
    1 ≤ numTests cfg win := by
  have h1 : 0 < numBinsOf cfg win.length := by omega
  have h2 : 0 < winChannels win := by omega
  exact Nat.mul_pos h1 h2

theorem pFinal_pos (cfg : SpectralStatsSettings) (win : List Sample) (b c : ℕ)
    (hN : 1 ≤ numTests cfg win) : 0 < pFinal cfg win b c := by
  rw [pFinal]
  split
  · apply lt_min one_pos
    apply mul_pos (pRaw_pos cfg win b c)
    exact_mod_cast hN
  · exact pRaw_pos cfg win b c

theorem pFinal_le_one (cfg : SpectralStatsSettings) (win : List Sample) (b c : ℕ) :
    pFinal cfg win b c ≤ 1 := by
  rw [pFinal]
  split
  · exact min_le_left _ _
  · exact pRaw_le_one cfg win b c

theorem pFinal_degenerate (cfg : SpectralStatsSettings) (win : List Sample)
    (b c : ℕ) (hdeg : degenerateWin win = true) (hN : 1 ≤ numTests cfg win) :
    pFinal cfg win b c = 1 := by
  rw [pFinal, pRaw_degenerate cfg win b c hdeg]
  split
  · rw [one_mul]
    exact min_eq_left (by exact_mod_cast hN)
  · rfl

/-- C6: every completed window with zero variance (all-zero or constant
samples) is emitted with p-value exactly 1, hence score `-log10(p)` exactly 0,
for every retained frequency bin — a well-defined value in place of an error —
and more generally every emitted cell has a p-value in (0, 1], so its score is
a well-defined (finite) real number that is at least 0. -/
theorem degenerate_window_score (cfg : SpectralStatsSettings)
    (axes : List (String × AxisInfo)) (win : List Sample) (b c : ℕ) :
    (0 < pEntry (mkStats cfg axes win) b c ∧
      pEntry (mkStats cfg axes win) b c ≤ 1 ∧
      0 ≤ -Real.logb 10 ((pEntry (mkStats cfg axes win) b c : ℚ) : ℝ)) ∧
    (degenerateWin win = true →
      pEntry (mkStats cfg axes win) b c = 1 ∧
      -Real.logb 10 ((pEntry (mkStats cfg axes win) b c : ℚ) : ℝ) = 0) := by
  rw [pEntry_mkStats]
  by_cases h : b < numBinsOf cfg win.length ∧ c < winChannels win
  · rw [if_pos h]
    have hN := numTests_pos cfg win b c h
    have hp0 := pFinal_pos cfg win ((retainedBins cfg win.length).getD b 0) c hN
    have hp1 := pFinal_le_one cfg win ((retainedBins cfg win.length).getD b 0) c
    refine ⟨⟨hp0, hp1, score_nonneg _ hp0 hp1⟩, fun hdeg => ?_⟩
    have hone := pFinal_degenerate cfg win ((retainedBins cfg win.length).getD b 0) c
      hdeg hN
    rw [hone]
    exact ⟨rfl, score_of_one⟩
  · rw [if_neg h]
    exact ⟨⟨one_pos, le_refl 1, by rw [score_of_one]⟩,
      fun _ => ⟨rfl, score_of_one⟩⟩

/-- Witness for C6 at the concrete all-zero window `winZ`: the degenerate
hypothesis holds and the emitted score of bin 0, channel 0 is exactly 0. -/
theorem degenerate_window_score_witness :
    degenerateWin winZ = true ∧
    -Real.logb 10 ((pEntry (mkStats cfg0
        [("time", AxisInfo.mk 1 0 "s"), ("ch", AxisInfo.mk 1 0 "uV")] winZ) 0 0 : ℚ) : ℝ)
      = 0 := by
  refine ⟨by with_unfolding_all decide, ?_⟩
  exact ((degenerate_window_score cfg0
    [("time", AxisInfo.mk 1 0 "s"), ("ch", AxisInfo.mk 1 0 "uV")] winZ 0 0).2
    (by with_unfolding_all decide)).2

end EzmsgSsvep

namespace EzmsgSsvep

theorem pFinal_withMC_false (cfg : SpectralStatsSettings) (win : List Sample)
    (b c : ℕ) : pFinal (withMC cfg false) win b c = pRaw cfg win b c := rfl

theorem pFinal_withMC_true (cfg : SpectralStatsSettings) (win : List Sample)
    (b c : ℕ) :
    pFinal (withMC cfg true) win b c =
      min 1 (pRaw cfg win b c * (numTests cfg win : ℚ)) := rfl

theorem mkStats_entry_rel (cfg : SpectralStatsSettings)
    (axes axes2 : List (String × AxisInfo)) (win : List Sample) (b c : ℕ) :
    0 < pEntry (mkStats (withMC cfg false) axes win) b c ∧
    pEntry (mkStats (withMC cfg false) axes win) b c ≤
      pEntry (mkStats (withMC cfg true) axes2 win) b c ∧
    pEntry (mkStats (withMC cfg true) axes2 win) b c ≤ 1 := by
  rw [pEntry_mkStats, pEntry_mkStats]
  have hbinsF : retainedBins (withMC cfg false) win.length =
      retainedBins cfg win.length := rfl
  have hbinsT : retainedBins (withMC cfg true) win.length =
      retainedBins cfg win.length := rfl
  have hnbF : numBinsOf (withMC cfg false) win.length =
      numBinsOf cfg win.length := rfl
  have hnbT : numBinsOf (withMC cfg true) win.length =
      numBinsOf cfg win.length := rfl
  rw [hbinsF, hbinsT, hnbF, hnbT]
  by_cases h : b < numBinsOf cfg win.length ∧ c < winChannels win
  · rw [if_pos h, if_pos h]
    have hN := numTests_pos cfg win b c h
    have hN1 : (1 : ℚ) ≤ (numTests cfg win : ℚ) := by exact_mod_cast hN
    rw [pFinal_withMC_false, pFinal_withMC_true]
    have hpos := pRaw_pos cfg win ((retainedBins cfg win.length).getD b 0) c
    have hone := pRaw_le_one cfg win ((retainedBins cfg win.length).getD b 0) c
    refine ⟨hpos, ?_, min_le_left _ _⟩
    apply le_min hone
    exact le_mul_of_one_le_right hpos.le hN1
  · rw [if_neg h, if_neg h]
    exact ⟨one_pos, le_refl 1, le_refl 1⟩

theorem stepTransform_withMC (cfg : SpectralStatsSettings) (bb : Bool)
    (st : AccState) (msg : AxisArr) :
    stepTransform (withMC cfg bb) st msg =
      ((stepTransform cfg st msg).1,
        Option.map (fun o => mkStats (withMC cfg bb) msg.axes o.window)
          (stepTransform cfg st msg).2) := by
  have htime : (withMC cfg bb).time_axis = cfg.time_axis := rfl
  have hint : (withMC cfg bb).integration_time = cfg.integration_time := rfl
  simp only [stepTransform, htime, hint]
  cases hga : msg.getAxis cfg.time_axis with
  | none => rfl
  | some t =>
    by_cases hsh : shapeOk st msg.samples
    · simp only [hsh, if_true]
      by_cases hdur :
          durOf (st.buf ++ tagSamples t.gain msg.samples) < cfg.integration_time
      · simp [hdur]
      · simp [hdur, window_mkStats]
    · simp [hsh]

theorem runFrom_cons_none (cfg : SpectralStatsSettings) (st st2 : AccState)
    (a : AxisArr) (rest : List AxisArr)
    (h : stepTransform cfg st a = (st2, none)) :
    runFrom cfg st (a :: rest) = runFrom cfg st2 rest := by
  have e : runFrom cfg st (a :: rest) =
      match stepTransform cfg st a with
      | (st2, none) => runFrom cfg st2 rest
      | (st2, some o) => o :: runFrom cfg st2 rest := rfl
  rw [e, h]

theorem runFrom_cons_some (cfg : SpectralStatsSettings) (st st2 : AccState)
    (a : AxisArr) (o : StatOut) (rest : List AxisArr)
    (h : stepTransform cfg st a = (st2, some o)) :
    runFrom cfg st (a :: rest) = o :: runFrom cfg st2 rest := by
  have e : runFrom cfg st (a :: rest) =
      match stepTransform cfg st a with
      | (st2, none) => runFrom cfg st2 rest
      | (st2, some o) => o :: runFrom cfg st2 rest := rfl
  rw [e, h]

theorem runFrom_withMC_rel (cfg : SpectralStatsSettings) :
    ∀ (input : List AxisArr) (st : AccState) (i b c : ℕ),
      0 < ((runFrom (withMC cfg false) st input).map (fun o => pEntry o b c)).getD i 1 ∧
      ((runFrom (withMC cfg false) st input).map (fun o => pEntry o b c)).getD i 1 ≤
        ((runFrom (withMC cfg true) st input).map (fun o => pEntry o b c)).getD i 1 ∧
      ((runFrom (withMC cfg true) st input).map (fun o => pEntry o b c)).getD i 1 ≤ 1 := by
  intro input
  induction input with
  | nil =>
    intro st i b c
    simp only [runFrom, List.map_nil]
    rw [List.getD_eq_getElem?_getD, List.getElem?_nil]
    exact ⟨one_pos, le_refl 1, le_refl 1⟩
  | cons a rest ih =>
    intro st i b c
    have hstepT := stepTransform_withMC cfg true st a
    have hstepF := stepTransform_withMC cfg false st a
    cases hsc : stepTransform cfg st a with
    | mk st2 out =>
      rw [hsc] at hstepT hstepF
      cases out with
      | none =>
        rw [runFrom_cons_none (withMC cfg true) st st2 a rest hstepT,
          runFrom_cons_none (withMC cfg false) st st2 a rest hstepF]
        exact ih st2 i b c
      | some o =>
        rw [runFrom_cons_some (withMC cfg true) st st2 a
            (mkStats (withMC cfg true) a.axes o.window) rest hstepT,
          runFrom_cons_some (withMC cfg false) st st2 a
            (mkStats (withMC cfg false) a.axes o.window) rest hstepF]
        cases i with
        | zero =>
          simp only [List.map_cons, List.getD_cons_zero]
          exact mkStats_entry_rel cfg a.axes a.axes o.window b c
        | succ j =>
          simp only [List.map_cons, List.getD_cons_succ]
          exact ih st2 j b c

/-- C2: for every fixed input sequence and every output index, frequency bin
and channel, the significance score `-log10(p)` emitted with
`multiple_comparisons` enabled is at most the score emitted with it disabled
on the same input: the Bonferroni correction can only raise the reported
p-value, so it never increases any cell's score. -/
theorem correction_monotone (cfg : SpectralStatsSettings) (input : List AxisArr)
    (i b c : ℕ) :
    -Real.logb 10 ((runP (withMC cfg true) input i b c : ℚ) : ℝ) ≤
      -Real.logb 10 ((runP (withMC cfg false) input i b c : ℚ) : ℝ) := by
  obtain ⟨h1, h2, h3⟩ := runFrom_withMC_rel cfg input (AccState.mk []) i b c
  have hPF : runP (withMC cfg false) input i b c =
      ((runFrom (withMC cfg false) (AccState.mk []) input).map
        (fun o => pEntry o b c)).getD i 1 := rfl
  have hPT : runP (withMC cfg true) input i b c =
      ((runFrom (withMC cfg true) (AccState.mk []) input).map
        (fun o => pEntry o b c)).getD i 1 := rfl
  rw [hPF, hPT]
  apply neg_le_neg
  apply Real.logb_le_logb_of_le (by norm_num : (1 : ℝ) < 10)
  · exact_mod_cast h1
  · exact_mod_cast h2

end EzmsgSsvep

namespace EzmsgSsvep

/-- C7: every array emitted for a completed window carries, in place of the
configured time axis, a frequency axis named `freq_axis` whose gain is the
frequency resolution (one over the window duration, i.e. `integration_time`)
and whose offset is the lower bound of the retained frequency range, while
every other axis of the input is present unchanged in the output (the
substitution is positional, so the axis count is also preserved, and —
provided the two configured names differ — no axis named `time_axis`
remains). -/
theorem output_axis_metadata (cfg : SpectralStatsSettings)
    (axes : List (String × AxisInfo)) (win : List Sample) :
    (mkStats cfg axes win).axes.length = axes.length ∧
    (∀ p ∈ axes, p.1 ≠ cfg.time_axis → p ∈ (mkStats cfg axes win).axes) ∧
    (∀ tax : AxisInfo, (cfg.time_axis, tax) ∈ axes →
      (cfg.freq_axis,
        AxisInfo.mk (1 / cfg.integration_time) (retainedLo cfg win.length) "Hz") ∈
        (mkStats cfg axes win).axes) ∧
    (cfg.freq_axis ≠ cfg.time_axis →
      ∀ tax : AxisInfo, (cfg.time_axis, tax) ∉ (mkStats cfg axes win).axes) := by
  have haxes : (mkStats cfg axes win).axes = substAxis cfg win.length axes := rfl
  refine ⟨?_, ?_, ?_, ?_⟩
  · rw [haxes, substAxis, List.length_map]
  · intro p hp hne
    rw [haxes, substAxis]
    apply List.mem_map.mpr
    exact ⟨p, hp, by rw [if_neg hne]⟩
  · intro tax htax
    rw [haxes, substAxis]
    apply List.mem_map.mpr
    refine ⟨(cfg.time_axis, tax), htax, ?_⟩
    rw [if_pos rfl]
    rfl
  · intro hne tax hmem
    rw [haxes, substAxis] at hmem
    obtain ⟨q, _, heq⟩ := List.mem_map.mp hmem
    by_cases hq1 : q.1 = cfg.time_axis
    · rw [if_pos hq1] at heq
      exact hne (congrArg Prod.fst heq)
    · rw [if_neg hq1] at heq
      exact hq1 (congrArg Prod.fst heq)

/-- Witness for C7 at a concrete input axis list containing the `time` axis
of `cfg0` and a channel axis: the emitted axes contain the substituted
frequency axis. -/
theorem output_axis_metadata_witness :
    (("time", AxisInfo.mk 1 0 "s") ∈
      ([("time", AxisInfo.mk 1 0 "s"), ("ch", AxisInfo.mk 1 0 "uV")] :
        List (String × AxisInfo))) ∧
    (cfg0.freq_axis,
      AxisInfo.mk (1 / cfg0.integration_time) (retainedLo cfg0 winZ.length) "Hz") ∈
      (mkStats cfg0 [("time", AxisInfo.mk 1 0 "s"), ("ch", AxisInfo.mk 1 0 "uV")]
        winZ).axes := by
  refine ⟨by with_unfolding_all decide, ?_⟩
  exact (output_axis_metadata cfg0
    [("time", AxisInfo.mk 1 0 "s"), ("ch", AxisInfo.mk 1 0 "uV")] winZ).2.2.1
    (AxisInfo.mk 1 0 "s") (by with_unfolding_all decide)

end EzmsgSsvep
